import Mathlib

/-!
# cpsm Vim extension (`src/vim_extension.cc`): a shallow embedding

The development embeds the batched candidate cursor
(`VimListCtrlPMatchSource`), the worker-count computation
(`get_nr_threads`) and the entry point `cpsm_ctrlp_match` and proves
properties of them.

Conventions.
* `std::size_t` is a natural number below `2 ^ 64`, `unsigned int` one below
  `2 ^ 32`; every operation that can leave the range is written with an
  explicit `%`.
* A C string / byte buffer is a `List Char`, one `Char` per byte.
* The host callbacks `vim_list_len`, `vim_list_find` are the fields of the
  host list they are applied to.
-/

namespace Cpsm

/-- Byte strings: one `Char` per byte. -/
abbrev Bytes := List Char

/-- Number of values of `std::size_t`. -/
def SIZE_T_MOD : Nat := 2 ^ 64

/-- Number of values of `unsigned int`. -/
def UINT_MOD : Nat := 2 ^ 32

/-- Exception type `cpsm::Error`, carrying its message. -/
structure Error where
  what : String
  deriving DecidableEq, Repr

/-- Modelled from the spec: the host type tag `v_type` of a `typval_T`
(`vim.h` is not among the sources); only `VAR_STRING` is told apart. -/
inductive vartype_T where
  | VAR_STRING
  | VAR_OTHER
  deriving DecidableEq, Repr

/-- Modelled from the spec: the host value `typval_T` of a candidate item
(`vim.h` is not among the sources): the type tag and the bytes found at
`vval.v_string`. -/
structure typval_T where
  v_type : vartype_T
  v_string : Bytes
  deriving DecidableEq, Repr

/-- Modelled from the spec: the host list item `listitem_T` (`vim.h` is not
among the sources). -/
structure listitem_T where
  li_tv : typval_T
  deriving DecidableEq, Repr

/-- Modelled from the spec: the host candidate list `list_T` as seen through
the callbacks: `len` is the result of `vim_list_len`, `find i` the result of
`vim_list_find` at the index held in the cursor (`none` is the null
pointer). -/
structure list_T where
  len : Int
  find : Nat → Option listitem_T

/-- A `string_view`: `size` bytes starting `off` bytes into the storage
`base`. -/
structure string_view where
  base : Bytes
  off : Nat
  size : Nat
  deriving DecidableEq, Repr

/-- The bytes a view denotes. -/
def string_view.bytes (v : string_view) : Bytes :=
  (v.base.drop v.off).take v.size

/-- The byte at position `p` of a view. -/
def string_view.byteAt (v : string_view) (p : Nat) : Option Char :=
  if p < v.size then v.base.get? (v.off + p) else none

/-- C `strlen`: the number of bytes before the first NUL. -/
def strlen (s : Bytes) : Nat :=
  (s.takeWhile (fun c => c ≠ Char.ofNat 0)).length

/-- The function `VimString_AsStringAndSize`: `none` is the `false` return, `some (data,
size)` the `true` return with the two out-parameters. -/
def VimString_AsStringAndSize (li : listitem_T) : Option (Bytes × Nat) :=
  if li.li_tv.v_type = vartype_T.VAR_STRING then
    some (li.li_tv.v_string, strlen li.li_tv.v_string)
  else
    none

/-- The item type `VimListCtrlPItem<MatchMode>`: the wrapped `StringRefItem`, a view of the
candidate. -/
structure Item where
  inner : string_view
  deriving DecidableEq, Repr

/-- The mutable members of `VimListCtrlPMatchSource` (the list pointer
`list_` is constant and passed alongside). -/
structure VimListCtrlPMatchSource where
  i_ : Nat
  size_ : Nat
  done_ : Bool
  deriving DecidableEq, Repr

/-- The constant `VimListCtrlPMatchSource::batch_size`. -/
def batch_size : Nat := 512

/-- The constructor of `VimListCtrlPMatchSource`: `size_` is a `std::size_t`,
so the `long` result of `vim_list_len` is converted modulo `2 ^ 64` and the
comparison `size_ < 0` is one of unsigned numbers. -/
def VimListCtrlPMatchSource.ctor (list : list_T) :
    Except Error VimListCtrlPMatchSource :=
  let size_ : Nat := (list.len % (SIZE_T_MOD : Int)).toNat
  if size_ < 0 then
    Except.error ⟨"input is not a list"⟩
  else
    Except.ok { i_ := 0, size_ := size_, done_ := false }

/-- The lambda `add_item` of `fill`: the flag it returns and the buffer. -/
def add_item (item_obj : Option listitem_T) (items : List Item) :
    Bool × List Item :=
  match item_obj with
  | none => (false, items)
  | some li =>
    match VimString_AsStringAndSize li with
    | none => (false, items)
    | some (item_data, item_size) =>
      (true, items ++ [Item.mk ⟨item_data, 0, item_size⟩])

/-- The `for (; i_ < max; i_++)` loop of `fill`; the first argument is the
number `max - i_` of iterations left.  The result is `(false, i_, items)` when
`add_item` failed at `i_` and `(true, max, items)` when the loop ran to its
end. -/
def fill_loop (list_ : list_T) : Nat → Nat → List Item → Bool × Nat × List Item
  | 0, i_, items => (true, i_, items)
  | n + 1, i_, items =>
    match add_item (list_.find i_) items with
    | (false, items1) => (false, i_, items1)
    | (true, items1) => fill_loop list_ n (i_ + 1) items1

/-- The method `VimListCtrlPMatchSource::fill`, run under the mutex: the returned flag,
the members afterwards and the caller's buffer afterwards. -/
def VimListCtrlPMatchSource.fill (list_ : list_T) (s : VimListCtrlPMatchSource)
    (items : List Item) : Bool × VimListCtrlPMatchSource × List Item :=
  if s.done_ then
    (false, s, items)
  else
    let max := min ((s.i_ + batch_size) % SIZE_T_MOD) s.size_
    match fill_loop list_ (max - s.i_) s.i_ items with
    | (false, i, items1) => (false, { s with i_ := i, done_ := true }, items1)
    | (true, i, items1) => (decide (i ≠ s.size_), { s with i_ := i }, items1)

/-- One `fill` call of a run: the members before, the buffer passed, the
flag returned, the members after and the buffer after. -/
structure Call where
  before : VimListCtrlPMatchSource
  buf : List Item
  ret : Bool
  after : VimListCtrlPMatchSource
  out : List Item
  deriving DecidableEq, Repr

/-- The serialised `fill` calls of any set of workers: call `j` is made with
the buffer `bufs[j]` on the members left by call `j - 1`. -/
def calls (list_ : list_T) : VimListCtrlPMatchSource → List (List Item) → List Call
  | _, [] => []
  | s, buf :: bufs =>
    let r := VimListCtrlPMatchSource.fill list_ s buf
    ⟨s, buf, r.1, r.2.1, r.2.2⟩ :: calls list_ r.2.1 bufs

/-- The candidate at index `i`, when it is a readable string. -/
def candidate (list_ : list_T) (i : Nat) : Option Item :=
  match list_.find i with
  | none => none
  | some li =>
    match VimString_AsStringAndSize li with
    | none => none
    | some (d, n) => some (Item.mk ⟨d, 0, n⟩)

/-- The readable candidates of the `n` indices from `a` on, in order. -/
def candidates (list_ : list_T) (a n : Nat) : List Item :=
  (List.range' a n).filterMap (candidate list_)

/-- The index range a call handed out. -/
def Call.indices (c : Call) : List Nat :=
  List.range' c.before.i_ (c.after.i_ - c.before.i_)

/-- Whether the item at index `i` is present and a string
(`vim_list_find` gives a non-null item whose type tag is `VAR_STRING`). -/
def readable (list_ : list_T) (i : Nat) : Bool :=
  match list_.find i with
  | none => false
  | some li => decide (li.li_tv.v_type = vartype_T.VAR_STRING)

/-- A host list holding the given strings. -/
def listOfStrings (xs : List Bytes) : list_T :=
  { len := xs.length
    find := fun i => (xs.get? i).map (fun s => ⟨⟨vartype_T.VAR_STRING, s⟩⟩) }


/-- The cursor states met on a list of `N` readable strings. -/
def CursorInv (N : Nat) (s : VimListCtrlPMatchSource) : Prop :=
  s.size_ = N ∧ s.i_ ≤ N ∧ s.done_ = false

/-- A state in which `fill` returns `false` and changes nothing. -/
def Stuck (s : VimListCtrlPMatchSource) : Prop :=
  s.done_ = true ∨ s.i_ = s.size_

/-- A host list of 1024 candidates, each the string `a`. -/
def list1024 : list_T :=
  { len := 1024
    find := fun i =>
      if i < 1024 then some ⟨⟨vartype_T.VAR_STRING, ['a']⟩⟩ else none }

/-- A host list of three candidates whose middle item is not a string. -/
def listBadMiddle : list_T :=
  { len := 3
    find := fun i =>
      if i = 0 then some ⟨⟨vartype_T.VAR_STRING, ['a']⟩⟩
      else if i = 1 then some ⟨⟨vartype_T.VAR_OTHER, []⟩⟩
      else if i = 2 then some ⟨⟨vartype_T.VAR_STRING, ['c']⟩⟩
      else none }

/-- The function `get_nr_threads`.  The parameter `hardware_concurrency` is the value
returned by `cpsm::Thread::hardware_concurrency()` (`par_util.h` is not among
the sources); it is stored in the `std::size_t` local `nr_threads`, and the
result is converted to the return type `unsigned int`. -/
def get_nr_threads (hardware_concurrency : Nat) (max_threads : Nat) : Nat :=
  let nr_threads : Nat := hardware_concurrency % SIZE_T_MOD
  let nr_threads : Nat := if nr_threads = 0 then 1 else nr_threads
  let nr_threads : Nat :=
    if max_threads ≠ 0 ∧ nr_threads > max_threads then max_threads else nr_threads
  nr_threads % UINT_MOD

/-- The argument of `set_nr_threads` in `cpsm_ctrlp_match`:
`get_nr_threads((max_threads_int >= 0) ? static_cast<unsigned int>(max_threads_int) : 0)`. -/
def nr_threads_option (hardware_concurrency : Nat) (max_threads_int : Int) : Nat :=
  get_nr_threads hardware_concurrency
    (if max_threads_int ≥ 0 then (max_threads_int % (UINT_MOD : Int)).toNat else 0)

/-- The worker count in the words of the specification:
`min(requested_max_threads_or_hardware_concurrency, max(1, hardware_concurrency))`,
the first argument being the cap `m` when `m > 0` and the hardware concurrency
`h` when `m ≤ 0`. -/
def spec_worker_count (h : Nat) (m : Int) : Nat :=
  min (if m > 0 then m.toNat else h) (max 1 h)

/-! ## The entry point `cpsm_ctrlp_match` -/

/-- Modelled from the spec: `cpsm::str_split` (`str_util.h` is not among the
sources), "split the query on every occurrence of that character": the
segments between the occurrences of `delimiter`, in order; a string with `n`
occurrences has `n + 1` segments. -/
def str_split : Bytes → Char → List Bytes
  | [], _ => [[]]
  | c :: cs, delimiter =>
    if c = delimiter then
      [] :: str_split cs delimiter
    else
      match str_split cs delimiter with
      | [] => [[c]]
      | seg :: segs => (c :: seg) :: segs

/-- Modelled from the spec: `cpsm::str_join` (`str_util.h` is not among the
sources), "rejoin": the strings one after the other with `sep` between
them. -/
def str_join (xs : List Bytes) (sep : Bytes) : Bytes :=
  sep.intercalate xs

/-- The query preprocessing at the start of the `try` block of
`cpsm_ctrlp_match`: the effective query, or the error thrown. -/
def effective_query (query : Bytes) (query_inverting_delimiter : Bytes) :
    Except Error Bytes :=
  match query_inverting_delimiter with
  | [] => Except.ok query
  | c :: rest =>
    if (c :: rest).length > 1 then
      Except.error ⟨"query inverting delimiter must be a single character"⟩
    else
      let split_words := str_split query c
      let split_words := split_words.reverse
      Except.ok (str_join split_words [])

/-- The enumeration `cpsm::CtrlPMatchMode`, the four cases of the `switch` in
`for_each_vimctrlp_match`. -/
inductive CtrlPMatchMode where
  | FULL_LINE
  | FILENAME_ONLY
  | FIRST_NON_TAB
  | UNTIL_LAST_TAB
  deriving DecidableEq, Repr

/-- Modelled from the spec: `cpsm::Options` (`api.h` is not among the
sources), the fields set in `cpsm_ctrlp_match`. -/
structure Options where
  crfile : Bytes
  limit : Nat
  match_crfile : Bool
  nr_threads : Nat
  path : Bool
  unicode : Bool
  want_match_info : Bool
  deriving DecidableEq, Repr

/-- One call of the match sink: the candidate, its match key and the match
positions of `info->match_positions()`, relative to the key. -/
structure MatchCall where
  item : string_view
  match_key : string_view
  match_positions : List Nat
  deriving DecidableEq, Repr

/-- The `fill` method of a source, as the matching engine sees it. -/
abbrev FillFn := VimListCtrlPMatchSource → List Item →
  Bool × VimListCtrlPMatchSource × List Item

/-- The parts of the program and of the host that `vim_extension.cc` calls
and that are not among the sources.
* `hardware_concurrency`: the result of `cpsm::Thread::hardware_concurrency()`.
* `parse_ctrlp_match_mode`: `cpsm::parse_ctrlp_match_mode`, which may throw.
* `for_each_match`: `cpsm::for_each_match`, given the query, the options, the
  match mode and the source with its `fill` method: the calls it makes to the
  sink, in order, and the error it throws afterwards, if any.
* `get_highlight_regexes`: `cpsm::get_highlight_regexes`, given the highlight
  mode, the candidate, the positions, the regexes so far and the line prefix:
  the regexes afterwards.
* `list_append_string`: the host callback `vim_list_append_string`, given a
  host list and the bytes to append: the list afterwards, `none` for `FAIL`. -/
structure Collaborators where
  hardware_concurrency : Nat
  parse_ctrlp_match_mode : Bytes → Except Error CtrlPMatchMode
  for_each_match : Bytes → Options → CtrlPMatchMode → FillFn →
    VimListCtrlPMatchSource → List MatchCall × Option Error
  get_highlight_regexes : Bytes → string_view → List Nat → List Bytes → Bytes → List Bytes
  list_append_string : List Bytes → Bytes → Option (List Bytes)

/-- Modelled from the spec: the argument block `cpsm_T` (`vim.h` is not among
the sources), as read by `VimArg_ParseKeywords`; each pair of a data pointer
and a size is one byte string. -/
structure cpsm_T where
  items_obj : list_T
  query : Bytes
  limit_int : Int
  mmode : Bytes
  is_path : Int
  crfile : Bytes
  highlight_mode : Bytes
  match_crfile : Int
  max_threads_int : Int
  query_inverting_delimiter : Bytes
  regex_line_prefix_data : Bytes
  unicode : Int

/-- Modelled from the spec: the return value `rettv` (`vim.h` is not among the
sources), seen through the two lookups of `cpsm_ctrlp_match`: `item0` is
`vim_list_find(rettv->vval.v_list, 0)` and `item1` the same at index 1;
`none` is a null item, `some none` an item whose `vval.v_list` is null, and
`some (some xs)` a host list holding the strings `xs`. -/
structure rettv_T where
  item0 : Option (Option (List Bytes))
  item1 : Option (Option (List Bytes))
  deriving DecidableEq, Repr

/-- The variables the match sink captures and changes: the host list
`matches_list` and the local vector `highlight_regexes`. -/
structure SinkState where
  matches_list : List Bytes
  highlight_regexes : List Bytes
  deriving DecidableEq, Repr

/-- The difference `match_key.data() - item.data()` stored in a `std::size_t`: both views
point into the same storage, so the difference of the pointers is the
difference of the offsets. -/
def sink_delta (item match_key : string_view) : Nat :=
  (((match_key.off : Int) - (item.off : Int)) % (SIZE_T_MOD : Int)).toNat

/-- The loop `for (auto& pos : match_positions) pos += delta` of the match
sink, on `std::size_t` values. -/
def adjust_positions (delta : Nat) (match_positions : List Nat) : List Nat :=
  match_positions.map (fun pos => (pos + delta) % SIZE_T_MOD)

/-- The match sink, the lambda passed to `for_each_vimctrlp_match` in
`cpsm_ctrlp_match`: the captured variables afterwards and the error thrown, if
any. -/
def match_sink (C : Collaborators) (args : cpsm_T) (m : MatchCall) (st : SinkState) :
    SinkState × Option Error :=
  match C.list_append_string st.matches_list m.match_key.bytes with
  | none => (st, some ⟨"match appending failed"⟩)
  | some matches_list =>
    let match_positions := m.match_positions
    let delta := sink_delta m.item m.match_key
    let match_positions := adjust_positions delta match_positions
    ({ matches_list := matches_list
       highlight_regexes :=
         C.get_highlight_regexes args.highlight_mode m.item match_positions
           st.highlight_regexes args.regex_line_prefix_data },
     none)

/-- The sink applied to the calls of the engine, in order, up to the first
one that throws. -/
def run_sink (C : Collaborators) (args : cpsm_T) : List MatchCall → SinkState →
    SinkState × Option Error
  | [], st => (st, none)
  | m :: ms, st =>
    match match_sink C args m st with
    | (st1, some e) => (st1, some e)
    | (st1, none) => run_sink C args ms st1

/-- The macro `DO_MATCH_WITH(MMODE)` of `for_each_vimctrlp_match`: the source
is constructed, the engine runs on it and calls the sink. -/
def DO_MATCH_WITH (C : Collaborators) (args : cpsm_T) (mmode : CtrlPMatchMode)
    (query : Bytes) (opts : Options) (items_iter : list_T) (st : SinkState) :
    SinkState × Option Error :=
  match VimListCtrlPMatchSource.ctor items_iter with
  | Except.error e => (st, some e)
  | Except.ok source =>
    match C.for_each_match query opts mmode
        (VimListCtrlPMatchSource.fill items_iter) source with
    | (ms, err) =>
      match run_sink C args ms st with
      | (st1, some e) => (st1, some e)
      | (st1, none) => (st1, err)

/-- The function `for_each_vimctrlp_match`, with the sink of `cpsm_ctrlp_match`. -/
def for_each_vimctrlp_match (C : Collaborators) (args : cpsm_T) (query : Bytes)
    (opts : Options) (match_mode : CtrlPMatchMode) (items_iter : list_T)
    (st : SinkState) : SinkState × Option Error :=
  match match_mode with
  | CtrlPMatchMode.FULL_LINE =>
    DO_MATCH_WITH C args CtrlPMatchMode.FULL_LINE query opts items_iter st
  | CtrlPMatchMode.FILENAME_ONLY =>
    DO_MATCH_WITH C args CtrlPMatchMode.FILENAME_ONLY query opts items_iter st
  | CtrlPMatchMode.FIRST_NON_TAB =>
    DO_MATCH_WITH C args CtrlPMatchMode.FIRST_NON_TAB query opts items_iter st
  | CtrlPMatchMode.UNTIL_LAST_TAB =>
    DO_MATCH_WITH C args CtrlPMatchMode.UNTIL_LAST_TAB query opts items_iter st

/-- The last loop of `cpsm_ctrlp_match`: the regexes are appended to the host
list one by one; the list afterwards and whether every append succeeded. -/
def append_regexes (C : Collaborators) : List Bytes → List Bytes → List Bytes × Bool
  | [], regexes_list => (regexes_list, true)
  | regex :: rest, regexes_list =>
    match C.list_append_string regexes_list regex with
    | none => (regexes_list, false)
    | some regexes_list1 => append_regexes C rest regexes_list1

/-- The options `mopts` built in `cpsm_ctrlp_match`. -/
def mopts (C : Collaborators) (args : cpsm_T) : Options :=
  { crfile := args.crfile
    limit := if args.limit_int ≥ 0 then (args.limit_int % (SIZE_T_MOD : Int)).toNat else 0
    match_crfile := decide (args.match_crfile ≠ 0)
    nr_threads := nr_threads_option C.hardware_concurrency args.max_threads_int
    path := decide (args.is_path ≠ 0)
    unicode := decide (args.unicode ≠ 0)
    want_match_info := true }

/-- The `try` block of `cpsm_ctrlp_match`: the host's return value afterwards
and the exception that left the block, if any. -/
def cpsm_ctrlp_match_try (C : Collaborators) (args : cpsm_T) (rettv : rettv_T) :
    rettv_T × Option Error :=
  match effective_query args.query args.query_inverting_delimiter with
  | Except.error e => (rettv, some e)
  | Except.ok query =>
    match rettv.item0 with
    | none => (rettv, none)
    | some none => (rettv, none)
    | some (some matches_list) =>
      match C.parse_ctrlp_match_mode args.mmode with
      | Except.error e => (rettv, some e)
      | Except.ok match_mode =>
        match for_each_vimctrlp_match C args query (mopts C args) match_mode
            args.items_obj ⟨matches_list, []⟩ with
        | (st, some e) => ({ rettv with item0 := some (some st.matches_list) }, some e)
        | (st, none) =>
          match rettv.item1 with
          | none => ({ rettv with item0 := some (some st.matches_list) }, none)
          | some none => ({ rettv with item0 := some (some st.matches_list) }, none)
          | some (some regexes_list) =>
            match append_regexes C st.highlight_regexes regexes_list with
            | (regexes_list1, false) =>
              ({ item0 := some (some st.matches_list), item1 := some (some regexes_list1) },
               some ⟨"regex appending failed"⟩)
            | (regexes_list1, true) =>
              ({ item0 := some (some st.matches_list), item1 := some (some regexes_list1) },
               none)

/-- The function `cpsm_ctrlp_match`: the `try` block, whose exceptions are caught by the
handler, which returns; the function returns nothing, so what the host sees is
its return value `rettv`. -/
def cpsm_ctrlp_match (C : Collaborators) (args : cpsm_T) (rettv : rettv_T) : rettv_T :=
  (cpsm_ctrlp_match_try C args rettv).1

/-- Whether one of the two output containers of the host is missing (the item
is null) or null (the list of the item is null). -/
def container_missing (x : Option (Option (List Bytes))) : Prop :=
  x = none ∨ x = some none

instance (x : Option (Option (List Bytes))) : Decidable (container_missing x) := by
  unfold container_missing
  infer_instance

/-! ## Concrete collaborators for the examples -/

/-- A worker loop for the examples: `fill` is called with an empty buffer
until it returns `false`, at most `n` times, and the candidates are
collected. -/
def drain (fill : FillFn) : Nat → VimListCtrlPMatchSource → List Item → List Item
  | 0, _, acc => acc
  | n + 1, s, acc =>
    match fill s [] with
    | (true, s1, buf) => drain fill n s1 (acc ++ buf)
    | (false, _, buf) => acc ++ buf

/-- Collaborators for the examples: a host whose appends succeed, a parser
that accepts every mode string as full-line mode, an engine that pulls every
candidate through `fill` and reports each as a match of its whole text without
positions (what a fuzzy matcher does on the empty query), and a formatter that
adds the candidate text as its regex. -/
def exampleCollaborators : Collaborators :=
  { hardware_concurrency := 1
    parse_ctrlp_match_mode := fun _ => Except.ok CtrlPMatchMode.FULL_LINE
    for_each_match := fun _ _ _ fill source =>
      ((drain fill (source.size_ / 512 + 1) source []).map
        (fun it => ⟨it.inner, it.inner, []⟩), none)
    get_highlight_regexes := fun _ item _ regexes _ => regexes ++ [item.bytes]
    list_append_string := fun l s => some (l ++ [s]) }

/-- Arguments for the examples: the empty query on the given candidates. -/
def exampleArgs (items : list_T) : cpsm_T :=
  { items_obj := items
    query := []
    limit_int := -1
    mmode := []
    is_path := 0
    crfile := []
    highlight_mode := []
    match_crfile := 0
    max_threads_int := 0
    query_inverting_delimiter := []
    regex_line_prefix_data := []
    unicode := 0 }

/-- The candidate `src/main.cc` as a view of its storage. -/
def exampleItem : string_view :=
  ⟨['s', 'r', 'c', '/', 'm', 'a', 'i', 'n', '.', 'c', 'c'], 0, 11⟩

/-- The filename-only key `main.cc` of `exampleItem`, four bytes in. -/
def exampleKey : string_view :=
  ⟨['s', 'r', 'c', '/', 'm', 'a', 'i', 'n', '.', 'c', 'c'], 4, 7⟩

/-! ## The cursor: auxiliary lemmas -/

theorem candidate_isSome_iff (l : list_T) (i : Nat) :
    (candidate l i).isSome = readable l i := by
  unfold candidate readable VimString_AsStringAndSize
  cases h : l.find i with
  | none => simp
  | some li =>
    by_cases hv : li.li_tv.v_type = vartype_T.VAR_STRING <;> simp [hv]

theorem candidate_eq_none_iff (l : list_T) (i : Nat) :
    candidate l i = none ↔ readable l i = false := by
  rw [← candidate_isSome_iff]
  cases candidate l i <;> simp

theorem add_item_eq (l : list_T) (i : Nat) (items : List Item) :
    add_item (l.find i) items =
      match candidate l i with
      | none => (false, items)
      | some it => (true, items ++ [it]) := by
  unfold add_item candidate
  cases l.find i with
  | none => rfl
  | some li =>
    cases h : VimString_AsStringAndSize li with
    | none => simp [h]
    | some p => simp [h]

theorem candidates_zero (l : list_T) (a : Nat) : candidates l a 0 = [] := rfl

theorem candidates_succ (l : list_T) (a n : Nat) :
    candidates l a (n + 1) =
      (candidate l a).toList ++ candidates l (a + 1) n := by
  unfold candidates
  rw [List.range'_succ, List.filterMap_cons]
  cases candidate l a <;> simp

theorem candidates_length (l : list_T) :
    ∀ (n a : Nat), (∀ m, a ≤ m → m < a + n → readable l m = true) →
      (candidates l a n).length = n := by
  intro n
  induction n with
  | zero => intro a _; rfl
  | succ n ih =>
    intro a h
    rw [candidates_succ]
    have h0 : (candidate l a).isSome = true := by
      rw [candidate_isSome_iff]; exact h a (le_refl _) (by omega)
    have h1 := ih (a + 1) (fun m hm1 hm2 => h m (by omega) (by omega))
    cases hc : candidate l a with
    | none => rw [hc] at h0; simp at h0
    | some it => simp [h1]

/-- What the loop of `fill` does: it stops at the first index `j` of its
range that is not a readable string, or at the end of the range. -/
theorem fill_loop_spec (l : list_T) :
    ∀ (n i : Nat) (items : List Item),
      ∃ j, i ≤ j ∧ j ≤ i + n ∧
        (∀ m, i ≤ m → m < j → readable l m = true) ∧
        (j < i + n → readable l j = false) ∧
        fill_loop l n i items =
          (decide (j = i + n), j, items ++ candidates l i (j - i)) := by
  intro n
  induction n with
  | zero =>
    intro i items
    refine ⟨i, le_refl _, le_refl _, ?_, ?_, ?_⟩
    · intro m h1 h2; omega
    · intro h; omega
    · simp [fill_loop, candidates_zero]
  | succ n ih =>
    intro i items
    cases hc : candidate l i with
    | none =>
      refine ⟨i, le_refl _, by omega, ?_, ?_, ?_⟩
      · intro m h1 h2; omega
      · intro _; exact (candidate_eq_none_iff l i).1 hc
      · simp [fill_loop, add_item_eq, hc, candidates_zero]
    | some it =>
      obtain ⟨j, hj1, hj2, hj3, hj4, hj5⟩ := ih (i + 1) (items ++ [it])
      refine ⟨j, by omega, by omega, ?_, ?_, ?_⟩
      · intro m h1 h2
        by_cases hm : m = i
        · subst hm
          rw [← candidate_isSome_iff, hc]; rfl
        · exact hj3 m (by omega) h2
      · intro h; exact hj4 (by omega)
      · have hji : j - i = (j - (i + 1)) + 1 := by omega
        have e1 : (j = i + (n + 1)) = (j = i + 1 + n) := by
          apply propext; constructor <;> intro h <;> omega
        simp only [fill_loop, add_item_eq, hc, hj5, hji, candidates_succ, e1]
        simp

/-- What one `fill` call does on a cursor that is not exhausted and whose
index cannot overflow: with `n` the size of the claimed range, it stops at the
first index `j` of the range that is not a readable string (returning `false`
and setting `done_`) or at the end of the range. -/
theorem fill_spec (l : list_T) (s : VimListCtrlPMatchSource) (buf : List Item)
    (hdone : s.done_ = false) (hof : s.i_ + batch_size < SIZE_T_MOD) :
    ∃ j, s.i_ ≤ j ∧ j ≤ s.i_ + (min (s.i_ + batch_size) s.size_ - s.i_) ∧
      (∀ m, s.i_ ≤ m → m < j → readable l m = true) ∧
      (j < s.i_ + (min (s.i_ + batch_size) s.size_ - s.i_) → readable l j = false) ∧
      VimListCtrlPMatchSource.fill l s buf =
        (decide (j = s.i_ + (min (s.i_ + batch_size) s.size_ - s.i_)) && decide (j ≠ s.size_),
         { i_ := j, size_ := s.size_,
           done_ := decide (j ≠ s.i_ + (min (s.i_ + batch_size) s.size_ - s.i_)) },
         buf ++ candidates l s.i_ (j - s.i_)) := by
  obtain ⟨j, h1, h2, h3, h4, h5⟩ :=
    fill_loop_spec l (min (s.i_ + batch_size) s.size_ - s.i_) s.i_ buf
  refine ⟨j, h1, h2, h3, h4, ?_⟩
  unfold VimListCtrlPMatchSource.fill
  rw [Nat.mod_eq_of_lt hof]
  simp only [hdone, Bool.false_eq_true, if_false, h5]
  by_cases hj : j = s.i_ + (min (s.i_ + batch_size) s.size_ - s.i_)
  · simp [← hj, hdone]
  · simp [hj]

/-- One `fill` call on a list of `N` readable strings. -/
theorem fill_readable (l : list_T) (N : Nat) (hfit : N < 2 ^ 63)
    (hread : ∀ i, i < N → readable l i = true)
    (s : VimListCtrlPMatchSource) (hs : CursorInv N s) (buf : List Item) :
    VimListCtrlPMatchSource.fill l s buf =
      (decide (min (s.i_ + batch_size) N ≠ N),
       { i_ := min (s.i_ + batch_size) N, size_ := N, done_ := false },
       buf ++ candidates l s.i_ (min (s.i_ + batch_size) N - s.i_)) := by
  obtain ⟨hsz, hi, hd⟩ := hs
  have hof : s.i_ + batch_size < SIZE_T_MOD := by
    unfold batch_size SIZE_T_MOD; omega
  obtain ⟨j, h1, h2, h3, h4, h5⟩ := fill_spec l s buf hd hof
  rw [hsz] at h2 h4 h5
  have hj : j = min (s.i_ + batch_size) N := by
    by_contra hne
    have hlt : j < s.i_ + (min (s.i_ + batch_size) N - s.i_) := by omega
    have := h4 hlt
    rw [hread j (by omega)] at this
    exact Bool.noConfusion this
  have e : s.i_ + (min (s.i_ + batch_size) N - s.i_) = min (s.i_ + batch_size) N := by
    omega
  rw [h5, e, ← hj]
  simp

theorem fill_readable_inv (l : list_T) (N : Nat) (hfit : N < 2 ^ 63)
    (hread : ∀ i, i < N → readable l i = true)
    (s : VimListCtrlPMatchSource) (hs : CursorInv N s) (buf : List Item) :
    CursorInv N (VimListCtrlPMatchSource.fill l s buf).2.1 := by
  rw [fill_readable l N hfit hread s hs buf]
  exact ⟨rfl, Nat.min_le_right _ _, rfl⟩

theorem ctor_eq (l : list_T) :
    VimListCtrlPMatchSource.ctor l =
      Except.ok { i_ := 0, size_ := (l.len % (SIZE_T_MOD : Int)).toNat, done_ := false } := by
  unfold VimListCtrlPMatchSource.ctor
  simp

theorem ctor_inv (l : list_T) (N : Nat) (hlen : l.len = (N : Int)) (hfit : N < 2 ^ 63)
    (s0 : VimListCtrlPMatchSource) (h0 : VimListCtrlPMatchSource.ctor l = Except.ok s0) :
    s0 = { i_ := 0, size_ := N, done_ := false } := by
  rw [ctor_eq] at h0
  injection h0 with h0
  rw [← h0, hlen]
  have : ((N : Int) % (SIZE_T_MOD : Int)).toNat = N := by
    unfold SIZE_T_MOD
    omega
  rw [this]

theorem range'_split (a b e : Nat) (h1 : a ≤ b) (h2 : b ≤ e) :
    List.range' a (b - a) ++ List.range' b (e - b) = List.range' a (e - a) := by
  obtain ⟨m, rfl⟩ := Nat.exists_eq_add_of_le h1
  obtain ⟨k, rfl⟩ := Nat.exists_eq_add_of_le h2
  have e1 : a + m - a = m := by omega
  have e2 : a + m + k - (a + m) = k := by omega
  have e3 : a + m + k - a = k + m := by omega
  rw [e1, e2, e3, List.range'_append_1]

/-- Every call of a run on a list of `N` readable strings. -/
theorem calls_readable (l : list_T) (N : Nat) (hfit : N < 2 ^ 63)
    (hread : ∀ i, i < N → readable l i = true) :
    ∀ (bufs : List (List Item)) (s : VimListCtrlPMatchSource), CursorInv N s →
      ∀ c ∈ calls l s bufs,
        CursorInv N c.before ∧ CursorInv N c.after ∧
        c.after.i_ = min (c.before.i_ + batch_size) N ∧
        c.ret = decide (c.after.i_ ≠ N) ∧
        c.out = c.buf ++ candidates l c.before.i_ (c.after.i_ - c.before.i_) := by
  intro bufs
  induction bufs with
  | nil => intro s _ c hc; simp [calls] at hc
  | cons buf bufs ih =>
    intro s hs c hc
    simp only [calls, List.mem_cons] at hc
    rcases hc with hc | hc
    · subst hc
      have hinv := fill_readable_inv l N hfit hread s hs buf
      refine ⟨hs, hinv, ?_, ?_, ?_⟩ <;>
        simp [fill_readable l N hfit hread s hs buf]
    · exact ih _ (fill_readable_inv l N hfit hread s hs buf) c hc

/-- The index ranges of a run on a list of `N` readable strings follow each
other without gap from the cursor position on. -/
theorem calls_indices (l : list_T) (N : Nat) (hfit : N < 2 ^ 63)
    (hread : ∀ i, i < N → readable l i = true) :
    ∀ (bufs : List (List Item)) (s : VimListCtrlPMatchSource), CursorInv N s →
      ∃ e, s.i_ ≤ e ∧ e ≤ N ∧
        ((calls l s bufs).map Call.indices).flatten = List.range' s.i_ (e - s.i_) ∧
        ((∃ c ∈ calls l s bufs, c.ret = false) → e = N) ∧
        (bufs ≠ [] → N ≤ s.i_ + batch_size * bufs.length →
          ∃ c ∈ calls l s bufs, c.ret = false) := by
  intro bufs
  induction bufs with
  | nil =>
    intro s hs
    refine ⟨s.i_, le_refl _, hs.2.1, by simp [calls], ?_, ?_⟩
    · rintro ⟨c, hc, _⟩; simp [calls] at hc
    · intro h; exact absurd rfl h
  | cons buf bufs ih =>
    intro s hs
    have hf := fill_readable l N hfit hread s hs buf
    have hinv := fill_readable_inv l N hfit hread s hs buf
    obtain ⟨e, he1, he2, he3, he4, he5⟩ := ih _ hinv
    have hi : (VimListCtrlPMatchSource.fill l s buf).2.1.i_ = min (s.i_ + batch_size) N := by
      rw [hf]
    rw [hi] at he1 he3 he5
    have hsi := hs.2.1
    refine ⟨e, by omega, he2, ?_, ?_, ?_⟩
    · simp only [calls, List.map_cons, List.flatten_cons, he3, Call.indices, hi]
      exact range'_split _ _ _ (by omega) he1
    · rintro ⟨c, hc, hr⟩
      simp only [calls, List.mem_cons] at hc
      rcases hc with hc | hc
      · subst hc
        simp only [hf] at hr
        have : min (s.i_ + batch_size) N = N := by simpa using hr
        omega
      · exact he4 ⟨c, hc, hr⟩
    · intro _ hN
      by_cases hb : bufs = []
      · subst hb
        refine ⟨_, List.mem_cons_self _ _, ?_⟩
        simp only [hf]
        simp only [List.length_cons, List.length_nil] at hN
        have : min (s.i_ + batch_size) N = N := by omega
        simp [this]
      · have hN2 : N ≤ min (s.i_ + batch_size) N + batch_size * bufs.length := by
          simp only [List.length_cons] at hN
          by_cases h : s.i_ + batch_size ≤ N
          · rw [Nat.min_eq_left h]
            rw [Nat.mul_succ] at hN
            omega
          · omega
        obtain ⟨c, hc, hr⟩ := he5 hb hN2
        exact ⟨c, by simp only [calls]; exact List.mem_cons_of_mem _ hc, hr⟩

/-- Once the cursor is marked exhausted, `fill` returns `false` and changes
nothing. -/
theorem fill_done (l : list_T) (s : VimListCtrlPMatchSource) (buf : List Item)
    (hd : s.done_ = true) :
    VimListCtrlPMatchSource.fill l s buf = (false, s, buf) := by
  unfold VimListCtrlPMatchSource.fill
  simp [hd]

/-- A cursor at the end of its list: `fill` returns `false` and changes
nothing. -/
theorem fill_at_end (l : list_T) (s : VimListCtrlPMatchSource) (buf : List Item)
    (he : s.i_ = s.size_) :
    VimListCtrlPMatchSource.fill l s buf = (false, s, buf) := by
  unfold VimListCtrlPMatchSource.fill
  by_cases hd : s.done_ = true
  · simp [hd]
  · have hm : min ((s.i_ + batch_size) % SIZE_T_MOD) s.size_ - s.i_ = 0 := by
      have := Nat.min_le_right ((s.i_ + batch_size) % SIZE_T_MOD) s.size_
      omega
    simp only [hd, Bool.false_eq_true, if_false, hm, fill_loop]
    cases s with
    | mk i sz dn =>
      simp only at he
      subst he
      simp only [Bool.not_eq_true] at hd
      simp [hd]

/-- After a call that returned `false` the cursor is marked exhausted or at
the end of its list. -/
theorem fill_false_state (l : list_T) (s : VimListCtrlPMatchSource) (buf : List Item)
    (hr : (VimListCtrlPMatchSource.fill l s buf).1 = false) :
    (VimListCtrlPMatchSource.fill l s buf).2.1.done_ = true ∨
      (VimListCtrlPMatchSource.fill l s buf).2.1.i_ =
        (VimListCtrlPMatchSource.fill l s buf).2.1.size_ := by
  unfold VimListCtrlPMatchSource.fill at hr ⊢
  by_cases hd : s.done_ = true
  · simp [hd]
  · simp only [hd, Bool.false_eq_true, if_false] at hr ⊢
    rcases hfl : fill_loop l (min ((s.i_ + batch_size) % SIZE_T_MOD) s.size_ - s.i_) s.i_ buf
      with ⟨ok, i, items1⟩
    rw [hfl] at hr
    cases ok with
    | false => simp
    | true =>
      right
      simpa using hr

theorem fill_stuck (l : list_T) (s : VimListCtrlPMatchSource) (buf : List Item)
    (h : Stuck s) : VimListCtrlPMatchSource.fill l s buf = (false, s, buf) := by
  rcases h with h | h
  · exact fill_done l s buf h
  · exact fill_at_end l s buf h

theorem calls_stuck (l : list_T) :
    ∀ (bufs : List (List Item)) (s : VimListCtrlPMatchSource), Stuck s →
      ∀ c ∈ calls l s bufs, c.before = s ∧ c.ret = false ∧ c.out = c.buf ∧ c.after = s := by
  intro bufs
  induction bufs with
  | nil => intro s _ c hc; simp [calls] at hc
  | cons buf bufs ih =>
    intro s hs c hc
    simp only [calls, List.mem_cons] at hc
    have hf := fill_stuck l s buf hs
    rcases hc with hc | hc
    · subst hc
      simp [hf]
    · rw [hf] at hc
      exact ih s hs c hc

/-- In any run, on any list, every call made after a call that returned
`false` returns `false`, appends nothing and leaves the cursor as it is. -/
theorem calls_after_false (l : list_T) :
    ∀ (bufs : List (List Item)) (s : VimListCtrlPMatchSource),
      List.Pairwise
        (fun c d => c.ret = false →
          d.ret = false ∧ d.out = d.buf ∧ d.before = c.after ∧ d.after = c.after)
        (calls l s bufs) := by
  intro bufs
  induction bufs with
  | nil => intro s; simp [calls]
  | cons buf bufs ih =>
    intro s
    simp only [calls]
    refine List.Pairwise.cons ?_ (ih _)
    intro d hd hr
    have hst : Stuck (VimListCtrlPMatchSource.fill l s buf).2.1 :=
      fill_false_state l s buf hr
    obtain ⟨h1, h2, h3, h4⟩ := calls_stuck l bufs _ hst d hd
    exact ⟨h2, h3, h1, h4⟩

/-- One `fill` call on a cursor that is not exhausted, on a list whose first
item that is not a readable string has index `k`: the call stops at `k` when
its range contains `k` and takes its whole range of 512 indices otherwise. -/
theorem fill_first_bad (l : list_T) (N k : Nat) (hfit : N < 2 ^ 63) (hk : k < N)
    (hbad : readable l k = false) (hmin : ∀ i, i < k → readable l i = true)
    (s : VimListCtrlPMatchSource) (hsz : s.size_ = N) (hi : s.i_ ≤ k)
    (hd : s.done_ = false) (buf : List Item) :
    VimListCtrlPMatchSource.fill l s buf =
      if k < min (s.i_ + batch_size) N then
        (false, { i_ := k, size_ := N, done_ := true },
          buf ++ candidates l s.i_ (k - s.i_))
      else
        (true, { i_ := s.i_ + batch_size, size_ := N, done_ := false },
          buf ++ candidates l s.i_ batch_size) := by
  have hof : s.i_ + batch_size < SIZE_T_MOD := by
    unfold batch_size SIZE_T_MOD; omega
  obtain ⟨j, h1, h2, h3, h4, h5⟩ := fill_spec l s buf hd hof
  rw [hsz] at h2 h4 h5
  have e : s.i_ + (min (s.i_ + batch_size) N - s.i_) = min (s.i_ + batch_size) N := by
    omega
  rw [e] at h2 h4 h5
  by_cases hc : k < min (s.i_ + batch_size) N
  · have hj : j = k := by
      by_contra hne
      rcases Nat.lt_or_gt_of_ne hne with hlt | hgt
      · have := h4 (by omega)
        rw [hmin j hlt] at this
        exact Bool.noConfusion this
      · have := h3 k hi hgt
        rw [hbad] at this
        exact Bool.noConfusion this
    have hne : k ≠ min (s.i_ + batch_size) N := by omega
    rw [h5, if_pos hc, hj]
    simp [hne]
  · have hj : j = min (s.i_ + batch_size) N := by
      by_contra hne
      have hlt : j < min (s.i_ + batch_size) N := by omega
      have := h4 hlt
      rw [hmin j (by omega)] at this
      exact Bool.noConfusion this
    have hm : min (s.i_ + batch_size) N = s.i_ + batch_size := by omega
    have hne : s.i_ + batch_size ≠ N := by omega
    rw [h5, if_neg hc, hj, hm]
    simp [hne]

/-- Every call of a run on a list whose first item that is not a readable
string has index `k`. -/
theorem calls_first_bad (l : list_T) (N k : Nat) (hfit : N < 2 ^ 63) (hk : k < N)
    (hbad : readable l k = false) (hmin : ∀ i, i < k → readable l i = true) :
    ∀ (bufs : List (List Item)) (s : VimListCtrlPMatchSource),
      s.size_ = N → s.i_ ≤ k →
      ∀ c ∈ calls l s bufs,
        c.before.size_ = N ∧ c.before.i_ ≤ c.after.i_ ∧ c.after.i_ ≤ k ∧
        c.after.i_ - c.before.i_ ≤ batch_size ∧
        c.out = c.buf ++ candidates l c.before.i_ (c.after.i_ - c.before.i_) ∧
        (c.before.done_ = false → k < min (c.before.i_ + batch_size) N →
          c.ret = false ∧ c.after.done_ = true ∧ c.after.i_ = k) := by
  intro bufs
  induction bufs with
  | nil => intro s _ _ c hc; simp [calls] at hc
  | cons buf bufs ih =>
    intro s hsz hi c hc
    simp only [calls, List.mem_cons] at hc
    by_cases hd : s.done_ = true
    · have hf := fill_done l s buf hd
      rcases hc with hc | hc
      · subst hc
        simp [hf, hsz, hi, hd, candidates_zero]
      · rw [hf] at hc
        exact ih s hsz hi c hc
    · simp only [Bool.not_eq_true] at hd
      have hf := fill_first_bad l N k hfit hk hbad hmin s hsz hi hd buf
      by_cases hcase : k < min (s.i_ + batch_size) N
      · rw [if_pos hcase] at hf
        rcases hc with hc | hc
        · subst hc
          simp [hf, hsz, hi, hd]
          unfold batch_size at hcase ⊢
          omega
        · rw [hf] at hc
          exact ih _ rfl (le_refl _) c hc
      · rw [if_neg hcase] at hf
        rcases hc with hc | hc
        · subst hc
          simp [hf, hsz, hd, hcase]
          omega
        · rw [hf] at hc
          exact ih _ rfl (by simp only; omega) c hc

/-- With enough calls, a run on a list whose first item that is not a readable
string has index `k` meets that item and marks the cursor exhausted. -/
theorem calls_reach_bad (l : list_T) (N k : Nat) (hfit : N < 2 ^ 63) (hk : k < N)
    (hbad : readable l k = false) (hmin : ∀ i, i < k → readable l i = true) :
    ∀ (bufs : List (List Item)) (s : VimListCtrlPMatchSource),
      s.size_ = N → s.i_ ≤ k → s.done_ = false →
      k < s.i_ + batch_size * bufs.length →
      ∃ c ∈ calls l s bufs, c.ret = false ∧ c.after.done_ = true ∧ c.after.i_ = k := by
  intro bufs
  induction bufs with
  | nil => intro s _ hi _ h; simp at h; omega
  | cons buf bufs ih =>
    intro s hsz hi hd hlen
    have hf := fill_first_bad l N k hfit hk hbad hmin s hsz hi hd buf
    by_cases hcase : k < min (s.i_ + batch_size) N
    · rw [if_pos hcase] at hf
      refine ⟨_, List.mem_cons_self _ _, ?_⟩
      simp [hf]
    · rw [if_neg hcase] at hf
      have hlen2 : k < s.i_ + batch_size + batch_size * bufs.length := by
        simp only [List.length_cons, Nat.mul_succ] at hlen
        omega
      obtain ⟨c, hc, hr⟩ := ih { i_ := s.i_ + batch_size, size_ := N, done_ := false }
        rfl (by simp only; omega) rfl hlen2
      refine ⟨c, ?_, hr⟩
      simp only [calls, hf]
      exact List.mem_cons_of_mem _ hc

/-- The first index that is not a readable string, below a given one. -/
theorem exists_first_bad (l : list_T) (k : Nat) (hbad : readable l k = false) :
    ∃ k0, k0 ≤ k ∧ readable l k0 = false ∧ ∀ i, i < k0 → readable l i = true := by
  have hex : ∃ i, readable l i = false := ⟨k, hbad⟩
  refine ⟨Nat.find hex, Nat.find_min' hex hbad, Nat.find_spec hex, ?_⟩
  intro i hi
  have := Nat.find_min hex hi
  simpa using this

/-! ## Query preprocessing: auxiliary lemmas -/

theorem str_split_ne_nil (q : Bytes) (c : Char) : str_split q c ≠ [] := by
  induction q with
  | nil => simp [str_split]
  | cons a q ih =>
    unfold str_split
    split_ifs
    · simp
    · cases h : str_split q c with
      | nil => simp
      | cons seg segs => simp

theorem str_split_cons_ne (a : Char) (q : Bytes) (c : Char) (h : a ≠ c) :
    ∃ seg segs, str_split q c = seg :: segs ∧
      str_split (a :: q) c = (a :: seg) :: segs := by
  cases hs : str_split q c with
  | nil => exact absurd hs (str_split_ne_nil q c)
  | cons seg segs =>
    refine ⟨seg, segs, rfl, ?_⟩
    conv_lhs => unfold str_split
    simp [h, hs]

theorem str_split_cons_eq (q : Bytes) (c : Char) :
    str_split (c :: q) c = [] :: str_split q c := by
  conv_lhs => unfold str_split
  simp

/-- No segment contains the delimiter. -/
theorem str_split_not_mem (q : Bytes) (c : Char) :
    ∀ seg ∈ str_split q c, c ∉ seg := by
  induction q with
  | nil => intro seg h; simp [str_split] at h; simp [h]
  | cons a q ih =>
    intro seg hseg
    by_cases h : a = c
    · subst h
      rw [str_split_cons_eq] at hseg
      rcases List.mem_cons.1 hseg with h1 | h1
      · simp [h1]
      · exact ih seg h1
    · obtain ⟨s0, ss, e1, e2⟩ := str_split_cons_ne a q c h
      rw [e2] at hseg
      rw [e1] at ih
      rcases List.mem_cons.1 hseg with h1 | h1
      · subst h1
        have := ih s0 (List.mem_cons_self _ _)
        simp only [List.mem_cons, not_or]
        exact ⟨fun hc => h hc.symm, this⟩
      · exact ih seg (List.mem_cons_of_mem _ h1)

/-- The segments, joined with the delimiter between them, give the string
back. -/
theorem str_split_intercalate (q : Bytes) (c : Char) :
    [c].intercalate (str_split q c) = q := by
  induction q with
  | nil => simp [str_split, List.intercalate]
  | cons a q ih =>
    by_cases h : a = c
    · subst h
      rw [str_split_cons_eq]
      cases hs : str_split q a with
      | nil => exact absurd hs (str_split_ne_nil q a)
      | cons seg segs =>
        rw [hs] at ih
        simp only [List.intercalate, List.intersperse, List.flatten_cons, List.nil_append,
          List.singleton_append] at ih ⊢
        rw [ih]
    · obtain ⟨s0, ss, e1, e2⟩ := str_split_cons_ne a q c h
      rw [e2]
      rw [e1] at ih
      cases ss with
      | nil =>
        simp only [List.intercalate, List.intersperse, List.flatten_cons, List.flatten_nil,
          List.append_nil] at ih ⊢
        rw [ih]
      | cons s1 ss =>
        simp only [List.intercalate, List.intersperse, List.flatten_cons,
          List.cons_append] at ih ⊢
        rw [ih]

/-- The number of segments is the number of delimiters plus one. -/
theorem str_split_length (q : Bytes) (c : Char) :
    (str_split q c).length = q.count c + 1 := by
  induction q with
  | nil => simp [str_split]
  | cons a q ih =>
    by_cases h : a = c
    · subst h
      rw [str_split_cons_eq]
      simp [ih]
    · obtain ⟨s0, ss, e1, e2⟩ := str_split_cons_ne a q c h
      rw [e2, List.count_cons_of_ne (fun hc => h hc.symm), ← ih, e1]
      rfl

/-- The total length of the segments. -/
theorem str_split_sum_length (q : Bytes) (c : Char) :
    ((str_split q c).map List.length).sum + q.count c = q.length := by
  induction q with
  | nil => simp [str_split]
  | cons a q ih =>
    by_cases h : a = c
    · subst h
      rw [str_split_cons_eq]
      simp only [List.map_cons, List.length_nil, List.sum_cons, List.count_cons_self,
        List.length_cons]
      omega
    · obtain ⟨s0, ss, e1, e2⟩ := str_split_cons_ne a q c h
      rw [e2, List.count_cons_of_ne (fun hc => h hc.symm)]
      rw [e1] at ih
      simp only [List.map_cons, List.length_cons, List.sum_cons] at ih ⊢
      omega

theorem str_split_of_not_mem (q : Bytes) (c : Char) (h : c ∉ q) :
    str_split q c = [q] := by
  induction q with
  | nil => rfl
  | cons a q ih =>
    simp only [List.mem_cons, not_or] at h
    obtain ⟨s0, ss, e1, e2⟩ := str_split_cons_ne a q c (fun hc => h.1 hc.symm)
    rw [e2]
    rw [ih h.2] at e1
    injection e1 with e3 e4
    rw [← e3, ← e4]

theorem str_join_nil (xs : List Bytes) : str_join xs [] = xs.flatten := by
  unfold str_join List.intercalate
  induction xs with
  | nil => rfl
  | cons x xs ih =>
    cases xs with
    | nil => simp [List.intersperse]
    | cons y ys =>
      simp only [List.intersperse, List.flatten_cons, List.nil_append] at ih ⊢
      rw [ih]

theorem effective_query_single (q : Bytes) (c : Char) :
    effective_query q [c] = Except.ok (str_split q c).reverse.flatten := by
  unfold effective_query
  simp [str_join_nil]

/-! ## The entry point: auxiliary lemmas -/

theorem for_each_vimctrlp_match_eq (C : Collaborators) (args : cpsm_T) (query : Bytes)
    (opts : Options) (match_mode : CtrlPMatchMode) (items_iter : list_T) (st : SinkState) :
    for_each_vimctrlp_match C args query opts match_mode items_iter st =
      DO_MATCH_WITH C args match_mode query opts items_iter st := by
  cases match_mode <;> rfl

/-- The only error the sink throws is that of a failed append. -/
theorem run_sink_error (C : Collaborators) (args : cpsm_T) :
    ∀ (ms : List MatchCall) (st : SinkState) (e : Error),
      (run_sink C args ms st).2 = some e → e = ⟨"match appending failed"⟩ := by
  intro ms
  induction ms with
  | nil => intro st e h; simp [run_sink] at h
  | cons m ms ih =>
    intro st e h
    unfold run_sink at h
    cases ha : C.list_append_string st.matches_list m.match_key.bytes with
    | none =>
      simp only [match_sink, ha] at h
      injection h with h
      exact h.symm
    | some ml =>
      simp only [match_sink, ha] at h
      exact ih _ e h

/-- On a host whose appends succeed the sink appends the key of every match,
in order, and throws nothing. -/
theorem run_sink_appends (C : Collaborators) (args : cpsm_T)
    (happ : ∀ l s, C.list_append_string l s = some (l ++ [s])) :
    ∀ (ms : List MatchCall) (st : SinkState),
      (run_sink C args ms st).1.matches_list =
          st.matches_list ++ ms.map (fun m => m.match_key.bytes) ∧
        (run_sink C args ms st).2 = none := by
  intro ms
  induction ms with
  | nil => intro st; simp [run_sink]
  | cons m ms ih =>
    intro st
    unfold run_sink
    simp only [match_sink, happ]
    obtain ⟨h1, h2⟩ := ih
      { matches_list := st.matches_list ++ [m.match_key.bytes]
        highlight_regexes :=
          C.get_highlight_regexes args.highlight_mode m.item
            (adjust_positions (sink_delta m.item m.match_key) m.match_positions)
            st.highlight_regexes args.regex_line_prefix_data }
    exact ⟨by rw [h1]; simp, h2⟩

/-- What the matching step leaves: the sink state after the calls of the
engine, and the error of the sink or else that of the engine. -/
theorem DO_MATCH_WITH_eq (C : Collaborators) (args : cpsm_T) (mmode : CtrlPMatchMode)
    (query : Bytes) (opts : Options) (items_iter : list_T) (st : SinkState) :
    DO_MATCH_WITH C args mmode query opts items_iter st =
      ((run_sink C args
          (C.for_each_match query opts mmode (VimListCtrlPMatchSource.fill items_iter)
            { i_ := 0, size_ := (items_iter.len % (SIZE_T_MOD : Int)).toNat,
              done_ := false }).1 st).1,
       match (run_sink C args
          (C.for_each_match query opts mmode (VimListCtrlPMatchSource.fill items_iter)
            { i_ := 0, size_ := (items_iter.len % (SIZE_T_MOD : Int)).toNat,
              done_ := false }).1 st).2 with
       | some e => some e
       | none =>
         (C.for_each_match query opts mmode (VimListCtrlPMatchSource.fill items_iter)
            { i_ := 0, size_ := (items_iter.len % (SIZE_T_MOD : Int)).toNat,
              done_ := false }).2) := by
  unfold DO_MATCH_WITH
  rw [ctor_eq]
  simp only
  rcases hr : run_sink C args
      (C.for_each_match query opts mmode (VimListCtrlPMatchSource.fill items_iter)
        { i_ := 0, size_ := (items_iter.len % (SIZE_T_MOD : Int)).toNat,
          done_ := false }).1 st with ⟨st1, err⟩
  cases err <;> simp

/-! ## The batched cursor -/

/-- C1 (batch coverage).  On a list of `N` readable strings, in any run of
`fill` calls started on the freshly constructed cursor (any buffers, any
interleaving of workers): every call appends exactly the candidates of one
contiguous range of at most 512 indices, one item per index; the ranges of
different calls are pairwise disjoint; as soon as some call has returned
`false` the ranges, put one after the other, are `0, 1, ..., N - 1`; and a
call does return `false` once the run has at least one call and at least
`N / 512` (rounded up) calls. -/
theorem fill_batch_coverage (list_ : list_T) (N : Nat)
    (hlen : list_.len = (N : Int)) (hfit : N < 2 ^ 63)
    (hread : ∀ i, i < N → readable list_ i = true)
    (s0 : VimListCtrlPMatchSource)
    (h0 : VimListCtrlPMatchSource.ctor list_ = Except.ok s0)
    (bufs : List (List Item)) :
    (∀ c ∈ calls list_ s0 bufs,
        c.before.i_ ≤ c.after.i_ ∧ c.after.i_ - c.before.i_ ≤ 512 ∧ c.after.i_ ≤ N ∧
        c.out = c.buf ++ candidates list_ c.before.i_ (c.after.i_ - c.before.i_) ∧
        (candidates list_ c.before.i_ (c.after.i_ - c.before.i_)).length =
          c.after.i_ - c.before.i_) ∧
    List.Pairwise List.Disjoint ((calls list_ s0 bufs).map Call.indices) ∧
    ((∃ c ∈ calls list_ s0 bufs, c.ret = false) →
        ((calls list_ s0 bufs).map Call.indices).flatten = List.range N) ∧
    (bufs ≠ [] → N ≤ 512 * bufs.length → ∃ c ∈ calls list_ s0 bufs, c.ret = false) := by
  have hs0 := ctor_inv list_ N hlen hfit s0 h0
  have hinv : CursorInv N s0 := by rw [hs0]; exact ⟨rfl, Nat.zero_le _, rfl⟩
  have hi0 : s0.i_ = 0 := by rw [hs0]
  obtain ⟨e, he1, he2, he3, he4, he5⟩ := calls_indices list_ N hfit hread bufs s0 hinv
  rw [hi0] at he3 he5
  refine ⟨?_, ?_, ?_, ?_⟩
  · intro c hc
    obtain ⟨h1, h2, h3, _, h5⟩ := calls_readable list_ N hfit hread bufs s0 hinv c hc
    have hb : c.before.i_ ≤ N := h1.2.1
    have hle : c.before.i_ ≤ c.after.i_ := by rw [h3]; unfold batch_size; omega
    refine ⟨hle, ?_, h2.2.1, h5, ?_⟩
    · rw [h3]; unfold batch_size; omega
    · apply candidates_length
      intro m hm1 hm2
      exact hread m (by have := h2.2.1; omega)
  · have hnd : (((calls list_ s0 bufs).map Call.indices).flatten).Nodup := by
      rw [he3]; exact List.nodup_range' _ _
    exact (List.nodup_flatten.1 hnd).2
  · intro h
    rw [he3, he4 h, List.range_eq_range']
    rfl
  · intro hne hN
    apply he5 hne
    unfold batch_size
    omega

/-- Witness of C1: 1024 candidates (twice the batch size) and three calls. -/
theorem fill_batch_coverage_witness :
    ((calls list1024 ⟨0, 1024, false⟩ [[], [], []]).map Call.indices).flatten =
      List.range 1024 :=
  have h := fill_batch_coverage list1024 1024 rfl (by decide)
    (fun i hi => by simp [readable, list1024, hi]) ⟨0, 1024, false⟩ rfl [[], [], []]
  h.2.2.1 (h.2.2.2 (by simp) (by decide))

/-- C3 (return value).  On a list of `N` readable strings every cursor state
met in a run has `size_ = N`, `i_ ≤ N` and `done_ = false`; in every such
state a `fill` call returns `true` exactly when an index is left unconsumed
after the call (`i_ < N` afterwards), so the call that consumes the last
index returns `false`, whatever `N` is; a call made when no index is left
(in particular any call on an empty list) returns `false`, appends nothing
and leaves the cursor as it is; and in a run every call after one that
returned `false` returns `false` and appends nothing. -/
theorem fill_return_value (list_ : list_T) (N : Nat)
    (hlen : list_.len = (N : Int)) (hfit : N < 2 ^ 63)
    (hread : ∀ i, i < N → readable list_ i = true)
    (s0 : VimListCtrlPMatchSource)
    (h0 : VimListCtrlPMatchSource.ctor list_ = Except.ok s0) :
    (∀ bufs, ∀ c ∈ calls list_ s0 bufs,
        c.before.size_ = N ∧ c.before.i_ ≤ N ∧ c.before.done_ = false) ∧
    (∀ (s : VimListCtrlPMatchSource) (buf : List Item),
        s.size_ = N → s.i_ ≤ N → s.done_ = false →
        (VimListCtrlPMatchSource.fill list_ s buf).2.1.i_ = min (s.i_ + 512) N ∧
        ((VimListCtrlPMatchSource.fill list_ s buf).1 = true ↔
          (VimListCtrlPMatchSource.fill list_ s buf).2.1.i_ < N) ∧
        ((VimListCtrlPMatchSource.fill list_ s buf).2.1.i_ = N →
          (VimListCtrlPMatchSource.fill list_ s buf).1 = false) ∧
        (s.i_ = N → VimListCtrlPMatchSource.fill list_ s buf = (false, s, buf))) ∧
    (∀ bufs, List.Pairwise
        (fun c d => c.ret = false → d.ret = false ∧ d.out = d.buf ∧ d.after = c.after)
        (calls list_ s0 bufs)) := by
  have hs0 := ctor_inv list_ N hlen hfit s0 h0
  have hinv : CursorInv N s0 := by rw [hs0]; exact ⟨rfl, Nat.zero_le _, rfl⟩
  refine ⟨?_, ?_, ?_⟩
  · intro bufs c hc
    exact (calls_readable list_ N hfit hread bufs s0 hinv c hc).1
  · intro s buf h1 h2 h3
    have hf := fill_readable list_ N hfit hread s ⟨h1, h2, h3⟩ buf
    have hm : min (s.i_ + batch_size) N ≤ N := Nat.min_le_right _ _
    refine ⟨by rw [hf]; rfl, ?_, ?_, ?_⟩
    · rw [hf]
      simp only [decide_eq_true_eq]
      omega
    · rw [hf]
      intro h
      simp only at h
      simp [h]
    · intro h
      exact fill_at_end list_ s buf (by rw [h, h1])
  · intro bufs
    refine List.Pairwise.imp ?_ (calls_after_false list_ bufs s0)
    intro c d h hr
    obtain ⟨a1, a2, _, a4⟩ := h hr
    exact ⟨a1, a2, a4⟩

/-- Witness of C3: 1024 candidates; the call made at `i_ = 512` consumes the
last index and returns `false`. -/
theorem fill_return_value_witness :
    (VimListCtrlPMatchSource.fill list1024 ⟨512, 1024, false⟩ []).2.1.i_ = 1024 ∧
      (VimListCtrlPMatchSource.fill list1024 ⟨512, 1024, false⟩ []).1 = false :=
  have h := (fill_return_value list1024 1024 rfl (by decide)
    (fun i hi => by simp [readable, list1024, hi]) ⟨0, 1024, false⟩ rfl).2.1
      ⟨512, 1024, false⟩ [] rfl (by decide) rfl
  ⟨h.1, h.2.2.1 h.1⟩

/-- C2 (fail-fast).  On a list of reported length `N` whose item at index
`k < N` is missing or not a string, in any run of `fill` calls started on the
freshly constructed cursor: no call hands out an index `≥ k` (every call
appends exactly the candidates of the range from its old `i_` to its new `i_`,
and the new `i_` is at most `k`, although `k < N`); the call whose claimed
range contains `k` returns `false`, marks the cursor exhausted, and stops
exactly at `k` when `k` is the first such item; every call after a call that
returned `false` returns `false`, appends nothing and leaves the cursor
exhausted; and such a call occurs once the run has more than `k / 512`
calls. -/
theorem fill_fail_fast (list_ : list_T) (N k : Nat)
    (hlen : list_.len = (N : Int)) (hfit : N < 2 ^ 63) (hk : k < N)
    (hbad : readable list_ k = false)
    (s0 : VimListCtrlPMatchSource)
    (h0 : VimListCtrlPMatchSource.ctor list_ = Except.ok s0)
    (bufs : List (List Item)) :
    (∀ c ∈ calls list_ s0 bufs,
        c.before.i_ ≤ c.after.i_ ∧ c.after.i_ ≤ k ∧ c.after.i_ - c.before.i_ ≤ 512 ∧
        c.out = c.buf ++ candidates list_ c.before.i_ (c.after.i_ - c.before.i_) ∧
        (candidates list_ c.before.i_ (c.after.i_ - c.before.i_)).length =
          c.after.i_ - c.before.i_ ∧
        (c.before.done_ = false → c.before.i_ ≤ k → k < min (c.before.i_ + 512) N →
          c.ret = false ∧ c.after.done_ = true ∧
          ((∀ i, i < k → readable list_ i = true) → c.after.i_ = k))) ∧
    List.Pairwise
      (fun c d => c.ret = false → d.ret = false ∧ d.out = d.buf ∧ d.after = c.after)
      (calls list_ s0 bufs) ∧
    (k / 512 < bufs.length →
      ∃ c ∈ calls list_ s0 bufs, c.ret = false ∧ c.after.done_ = true ∧ c.after.i_ ≤ k) := by
  have hs0 := ctor_inv list_ N hlen hfit s0 h0
  obtain ⟨k0, hk0, hbad0, hmin0⟩ := exists_first_bad list_ k hbad
  have hsz : s0.size_ = N := by rw [hs0]
  have hi0 : s0.i_ = 0 := by rw [hs0]
  have hd0 : s0.done_ = false := by rw [hs0]
  refine ⟨?_, ?_, ?_⟩
  · intro c hc
    obtain ⟨h1, h2, h3, h4, h5, h6⟩ :=
      calls_first_bad list_ N k0 hfit (by omega) hbad0 hmin0 bufs s0 hsz (by omega) c hc
    refine ⟨h2, by omega, h4, h5, ?_, ?_⟩
    · apply candidates_length
      intro m hm1 hm2
      exact hmin0 m (by omega)
    · intro hd _ hrange
      have hr0 : k0 < min (c.before.i_ + batch_size) N := by
        unfold batch_size; omega
      obtain ⟨a1, a2, a3⟩ := h6 hd hr0
      refine ⟨a1, a2, ?_⟩
      intro hall
      have : ¬ k0 < k := by
        intro hlt
        have := hall k0 hlt
        rw [hbad0] at this
        exact Bool.noConfusion this
      omega
  · refine List.Pairwise.imp ?_ (calls_after_false list_ bufs s0)
    intro c d h hr
    obtain ⟨a1, a2, _, a4⟩ := h hr
    exact ⟨a1, a2, a4⟩
  · intro hlenb
    have hb : k0 < s0.i_ + batch_size * bufs.length := by
      rw [hi0]
      unfold batch_size
      have := Nat.lt_mul_div_succ k (show 0 < 512 by decide)
      have h2 : 512 * (k / 512 + 1) ≤ 512 * bufs.length := Nat.mul_le_mul_left _ hlenb
      omega
    obtain ⟨c, hc, a1, a2, a3⟩ :=
      calls_reach_bad list_ N k0 hfit (by omega) hbad0 hmin0 bufs s0 hsz (by omega) hd0 hb
    exact ⟨c, hc, a1, a2, by omega⟩

/-- Witness of C2: three candidates, the middle one not a string, two
calls. -/
theorem fill_fail_fast_witness :
    ∃ c ∈ calls listBadMiddle ⟨0, 3, false⟩ [[], []],
      c.ret = false ∧ c.after.done_ = true ∧ c.after.i_ ≤ 1 :=
  (fill_fail_fast listBadMiddle 3 1 rfl (by decide) (by decide) rfl
    ⟨0, 3, false⟩ rfl [[], []]).2.2 (by decide)

/-- C4, the code at a negative length: the constructor does not fail; the
length `-1` is stored as `2 ^ 64 - 1` in the unsigned member `size_`, which is
never below zero, and the same holds for every list. -/
theorem ctor_negative_length :
    VimListCtrlPMatchSource.ctor { len := -1, find := fun _ => none } =
        Except.ok { i_ := 0, size_ := 2 ^ 64 - 1, done_ := false } ∧
      ∀ l : list_T, ∃ s, VimListCtrlPMatchSource.ctor l = Except.ok s := by
  constructor
  · rw [ctor_eq]; rfl
  · intro l; exact ⟨_, ctor_eq l⟩

/-! ## The worker count -/

/-- C5, counterexample: with hardware concurrency reported as 0 and no cap,
the code sets one worker, while the formula of the claim gives
`min(0, max(1, 0)) = 0`. -/
theorem nr_threads_option_counterexample :
    nr_threads_option 0 0 = 1 ∧ spec_worker_count 0 0 = 0 ∧
      nr_threads_option 0 0 ≠ spec_worker_count 0 0 := by
  decide

/-- C5, amended.  For every hardware concurrency `h` (an `unsigned int`) and
every cap `m` (an `int`), the number of workers set in the options is
`min(r, max(1, h))` with `r = m` when `m > 0` and `r = max(1, h)` when
`m ≤ 0`: without a cap the count is the hardware concurrency, taken as 1 when
it is reported as 0.  It agrees with the formula of the specification
whenever `h > 0`. -/
theorem nr_threads_option_eq (h : Nat) (m : Int)
    (hh : h < 2 ^ 32) (hm1 : -(2 ^ 31) ≤ m) (hm2 : m < 2 ^ 31) :
    nr_threads_option h m = min (if m > 0 then m.toNat else max 1 h) (max 1 h) ∧
      (0 < h → nr_threads_option h m = spec_worker_count h m) := by
  have key : nr_threads_option h m =
      min (if m > 0 then m.toNat else max 1 h) (max 1 h) := by
    unfold nr_threads_option get_nr_threads SIZE_T_MOD UINT_MOD
    have e1 : h % 2 ^ 64 = h := Nat.mod_eq_of_lt (by omega)
    simp only [e1]
    by_cases hmpos : m > 0
    · have e2 : (m % ((2 ^ 32 : Nat) : Int)).toNat = m.toNat := by omega
      have hge : m ≥ 0 := by omega
      simp only [hge, hmpos, if_true, e2]
      have hne : m.toNat ≠ 0 := by omega
      split_ifs <;> omega
    · by_cases hm0 : m = 0
      · subst hm0
        simp only [gt_iff_lt, lt_self_iff_false, if_false]
        split_ifs <;> omega
      · have hneg : ¬ m ≥ 0 := by omega
        simp only [hneg, hmpos, if_false]
        split_ifs <;> omega
  refine ⟨key, ?_⟩
  intro hpos
  rw [key]
  unfold spec_worker_count
  have : max 1 h = h := by omega
  rw [this]

/-- Witness of C5 (amended): eight hardware threads, cap 3. -/
theorem nr_threads_option_eq_witness : nr_threads_option 8 3 = 3 :=
  (nr_threads_option_eq 8 3 (by decide) (by decide) (by decide)).1

/-- C10 (bounds of `get_nr_threads`).  For every hardware concurrency `h` and
cap `m` the returned count is at least 1 when `h` and `m` fit the return type
`unsigned int`; it never exceeds `max(1, h)`; when `m > 0` it never exceeds
`m`; if it equals `max(1, h)` then `m = 0` or `m ≥ max(1, h)`; and when `h`
fits the return type it equals `max(1, h)` whenever `m = 0` or
`m ≥ max(1, h)`. -/
theorem get_nr_threads_bounds (h m : Nat) :
    (h < 2 ^ 32 → m < 2 ^ 32 → 1 ≤ get_nr_threads h m) ∧
      get_nr_threads h m ≤ max 1 h ∧
      (0 < m → get_nr_threads h m ≤ m) ∧
      (get_nr_threads h m = max 1 h → m = 0 ∨ max 1 h ≤ m) ∧
      (h < 2 ^ 32 → (m = 0 ∨ max 1 h ≤ m) → get_nr_threads h m = max 1 h) := by
  unfold get_nr_threads SIZE_T_MOD UINT_MOD
  have hmod : h % 2 ^ 64 ≤ h := Nat.mod_le _ _
  dsimp only
  refine ⟨?_, ?_, ?_, ?_, ?_⟩
  · intro hh hm
    have e1 : h % 2 ^ 64 = h := Nat.mod_eq_of_lt (by omega)
    simp only [e1]
    split_ifs <;> omega
  · split_ifs <;> omega
  · intro hm
    split_ifs <;> omega
  · intro heq
    by_contra hcon
    have hm0 : m ≠ 0 := fun h0 => hcon (Or.inl h0)
    have hlt : m < max 1 h := by
      by_contra h'
      exact hcon (Or.inr (by omega))
    revert heq
    split_ifs <;> omega
  · intro hh hor
    have e1 : h % 2 ^ 64 = h := Nat.mod_eq_of_lt (by omega)
    simp only [e1]
    split_ifs <;> omega

/-- Witness of C10: eight hardware threads; cap 3 gives 3, no cap gives 8. -/
theorem get_nr_threads_bounds_witness :
    1 ≤ get_nr_threads 8 3 ∧ get_nr_threads 8 3 ≤ 3 ∧ get_nr_threads 8 0 = max 1 8 :=
  ⟨(get_nr_threads_bounds 8 3).1 (by decide) (by decide),
   (get_nr_threads_bounds 8 3).2.2.1 (by decide),
   (get_nr_threads_bounds 8 0).2.2.2.2 (by decide) (Or.inl rfl)⟩

/-! ## Query preprocessing -/

/-- C6 (query preprocessing).  With an empty delimiter the effective query is
the raw query.  With a delimiter of more than one character the preprocessing
throws the error "query inverting delimiter must be a single character", the
`try` block of `cpsm_ctrlp_match` ends with that error and the host's return
value is untouched.  With a one-character delimiter `c` the effective query is
the concatenation of the segments of the query in reversed order, where the
segments are the strings without `c` that give the query back when joined
with `c`, one more than there are occurrences of `c`; the effective query
contains no `c`, its length is the length of the query minus the number of
occurrences of `c`, and it is the query itself when the query contains no
`c`. -/
theorem effective_query_spec (q d : Bytes) :
    (d = [] → effective_query q d = Except.ok q) ∧
    (1 < d.length →
      effective_query q d =
          Except.error ⟨"query inverting delimiter must be a single character"⟩ ∧
        ∀ (C : Collaborators) (args : cpsm_T) (rettv : rettv_T),
          args.query = q → args.query_inverting_delimiter = d →
          cpsm_ctrlp_match_try C args rettv =
              (rettv, some ⟨"query inverting delimiter must be a single character"⟩) ∧
            cpsm_ctrlp_match C args rettv = rettv) ∧
    (∀ c : Char, d = [c] →
      effective_query q d = Except.ok (str_split q c).reverse.flatten ∧
        [c].intercalate (str_split q c) = q ∧
        (∀ seg ∈ str_split q c, c ∉ seg) ∧
        (str_split q c).length = q.count c + 1 ∧
        c ∉ (str_split q c).reverse.flatten ∧
        ((str_split q c).reverse.flatten).length = q.length - q.count c ∧
        (c ∉ q → (str_split q c).reverse.flatten = q)) := by
  refine ⟨?_, ?_, ?_⟩
  · intro h; subst h; rfl
  · intro h
    have he : effective_query q d =
        Except.error ⟨"query inverting delimiter must be a single character"⟩ := by
      unfold effective_query
      cases d with
      | nil => simp at h
      | cons c rest => simp only [h, if_true]
    refine ⟨he, ?_⟩
    intro C args rettv hq hd
    have : cpsm_ctrlp_match_try C args rettv =
        (rettv, some ⟨"query inverting delimiter must be a single character"⟩) := by
      unfold cpsm_ctrlp_match_try
      rw [hq, hd, he]
    exact ⟨this, by unfold cpsm_ctrlp_match; rw [this]⟩
  · intro c hd
    subst hd
    refine ⟨effective_query_single q c, str_split_intercalate q c, str_split_not_mem q c,
      str_split_length q c, ?_, ?_, ?_⟩
    · intro hmem
      obtain ⟨seg, hseg, hc⟩ := List.mem_flatten.1 hmem
      exact str_split_not_mem q c seg (List.mem_reverse.1 hseg) hc
    · have h1 := str_split_sum_length q c
      rw [List.length_flatten, List.map_reverse, List.sum_reverse]
      omega
    · intro hn
      rw [str_split_of_not_mem q c hn]
      simp

/-- Witness of C6: the query `a.b.c` with the delimiter `.` gives `cba`, and
a two-character delimiter is refused. -/
theorem effective_query_spec_witness :
    effective_query ['a', '.', 'b', '.', 'c'] ['.'] = Except.ok ['c', 'b', 'a'] ∧
      effective_query ['a', '.', 'b', '.', 'c'] ['.', '.'] =
        Except.error ⟨"query inverting delimiter must be a single character"⟩ ∧
      effective_query ['a', '.', 'b', '.', 'c'] [] = Except.ok ['a', '.', 'b', '.', 'c'] :=
  ⟨((effective_query_spec ['a', '.', 'b', '.', 'c'] ['.']).2.2 '.' rfl).1,
   ((effective_query_spec ['a', '.', 'b', '.', 'c'] ['.', '.']).2.1 (by decide)).1,
   (effective_query_spec ['a', '.', 'b', '.', 'c'] []).1 rfl⟩

/-! ## The match sink and the output -/

/-- C7 (offset remapping).  For a candidate `item` and a match key that is a
contiguous sub-view of it (same storage, starting `delta` bytes after the
start of the candidate and ending within it), the sink computes exactly that
`delta`, hands the formatter `get_highlight_regexes` the candidate together
with the reported positions with `delta` added to each, in the same order and
number (the sum is a `std::size_t`; it is the plain sum for every position
that, shifted, stays below `2 ^ 64`, as every position inside the key does),
and for every reported position `p` inside the key the byte of the candidate
at `p + delta` is the byte of the key at `p`. -/
theorem match_sink_offsets (C : Collaborators) (args : cpsm_T)
    (item key : string_view) (positions : List Nat) (st : SinkState)
    (matches_list : List Bytes)
    (hbase : key.base = item.base) (hoff : item.off ≤ key.off)
    (hend : key.off + key.size ≤ item.off + item.size)
    (hfit : item.off + item.size < 2 ^ 64)
    (happ : C.list_append_string st.matches_list key.bytes = some matches_list) :
    sink_delta item key = key.off - item.off ∧
    match_sink C args ⟨item, key, positions⟩ st =
      ({ matches_list := matches_list
         highlight_regexes :=
           C.get_highlight_regexes args.highlight_mode item
             (adjust_positions (key.off - item.off) positions)
             st.highlight_regexes args.regex_line_prefix_data }, none) ∧
    (adjust_positions (key.off - item.off) positions).length = positions.length ∧
    ((∀ p ∈ positions, p + (key.off - item.off) < 2 ^ 64) →
      adjust_positions (key.off - item.off) positions =
        positions.map (fun p => p + (key.off - item.off))) ∧
    (∀ p ∈ positions, p < key.size →
      (p + (key.off - item.off)) % SIZE_T_MOD = p + (key.off - item.off) ∧
      item.byteAt (p + (key.off - item.off)) = key.byteAt p ∧
      (item.off + item.size ≤ item.base.length → (key.byteAt p).isSome = true)) := by
  have hd : sink_delta item key = key.off - item.off := by
    unfold sink_delta SIZE_T_MOD
    omega
  refine ⟨hd, ?_, ?_, ?_, ?_⟩
  · simp only [match_sink, happ, hd]
  · simp [adjust_positions]
  · intro h
    unfold adjust_positions
    apply List.map_congr_left
    intro p hp
    exact Nat.mod_eq_of_lt (by unfold SIZE_T_MOD; exact h p hp)
  · intro p _ hp
    refine ⟨Nat.mod_eq_of_lt (by unfold SIZE_T_MOD; omega), ?_, ?_⟩
    · unfold string_view.byteAt
      have h1 : p + (key.off - item.off) < item.size := by omega
      have h2 : item.off + (p + (key.off - item.off)) = key.off + p := by omega
      simp only [h1, hp, if_true, h2, hbase]
    · intro hlen
      unfold string_view.byteAt
      simp only [hp, if_true]
      rw [hbase]
      have : key.off + p < item.base.length := by omega
      rw [List.get?_eq_getElem?, List.getElem?_eq_getElem this]
      rfl

/-- Witness of C7: candidate `src/main.cc`, key `main.cc` four bytes in; the
reported position 0 is handed on as 4, where the candidate has the `m` of the
key. -/
theorem match_sink_offsets_witness :
    sink_delta exampleItem exampleKey = 4 ∧
      adjust_positions 4 [0] = [4] ∧
      exampleItem.byteAt 4 = exampleKey.byteAt 0 ∧ exampleKey.byteAt 0 = some 'm' :=
  have h := match_sink_offsets exampleCollaborators (exampleArgs list1024)
    exampleItem exampleKey [0] ⟨[], []⟩ [exampleKey.bytes]
    rfl (by decide) (by decide) (by decide) rfl
  ⟨h.1, h.2.2.2.1 (by decide), (h.2.2.2.2 0 (by decide) (by decide)).2.1, by decide⟩

/-- C8, counterexample: the match-key list is present and empty, the
highlight-regex list is missing; the call appends the two match keys to the
match-key list. -/
theorem output_container_counterexample :
    container_missing (rettv_T.mk (some (some [])) none).item1 ∧
      cpsm_ctrlp_match exampleCollaborators (exampleArgs (listOfStrings [['a'], ['b']]))
          ⟨some (some []), none⟩ =
        ⟨some (some [['a'], ['b']]), none⟩ ∧
      cpsm_ctrlp_match exampleCollaborators (exampleArgs (listOfStrings [['a'], ['b']]))
          ⟨some (some []), none⟩ ≠
        ⟨some (some []), none⟩ := by
  decide

/-- C8, amended.  When the match-key list (index 0) is missing or null the
call leaves the host's return value as it is.  When the highlight-regex list
(index 1) is missing or null the call appends nothing to that list; the match
keys are still appended to the match-key list: with a valid delimiter and
mode, on a host whose appends succeed, the match-key list ends up extended by
the key of every match the engine reported, in order.  The call returns
nothing, so no error reaches the host. -/
theorem output_container_missing (C : Collaborators) (args : cpsm_T) (rettv : rettv_T) :
    (container_missing rettv.item0 → cpsm_ctrlp_match C args rettv = rettv) ∧
    (container_missing rettv.item1 →
      (cpsm_ctrlp_match C args rettv).item1 = rettv.item1) ∧
    (∀ (ml : List Bytes) (query : Bytes) (mode : CtrlPMatchMode),
      rettv.item0 = some (some ml) → container_missing rettv.item1 →
      effective_query args.query args.query_inverting_delimiter = Except.ok query →
      C.parse_ctrlp_match_mode args.mmode = Except.ok mode →
      (∀ l s, C.list_append_string l s = some (l ++ [s])) →
      cpsm_ctrlp_match C args rettv =
        ⟨some (some (ml ++
            (C.for_each_match query (mopts C args) mode
              (VimListCtrlPMatchSource.fill args.items_obj)
              { i_ := 0, size_ := (args.items_obj.len % (SIZE_T_MOD : Int)).toNat,
                done_ := false }).1.map (fun m => m.match_key.bytes))),
          rettv.item1⟩) := by
  refine ⟨?_, ?_, ?_⟩
  · intro h
    unfold cpsm_ctrlp_match cpsm_ctrlp_match_try
    rcases h with h | h <;> rw [h] <;>
      cases effective_query args.query args.query_inverting_delimiter <;> rfl
  · intro h
    unfold cpsm_ctrlp_match cpsm_ctrlp_match_try
    cases effective_query args.query args.query_inverting_delimiter with
    | error e => rfl
    | ok query =>
      simp only
      rcases h0 : rettv.item0 with _ | _ | ml
      · rfl
      · rfl
      · simp only
        cases C.parse_ctrlp_match_mode args.mmode with
        | error e => rfl
        | ok match_mode =>
          simp only
          rcases for_each_vimctrlp_match C args query (mopts C args) match_mode
            args.items_obj ⟨ml, []⟩ with ⟨st, _ | e⟩
          · rcases h with h | h <;> simp only [h]
          · rfl
  · intro ml query mode h0 h1 hq hp happ
    unfold cpsm_ctrlp_match cpsm_ctrlp_match_try
    simp only [hq, h0, hp, for_each_vimctrlp_match_eq, DO_MATCH_WITH_eq]
    obtain ⟨a1, a2⟩ := run_sink_appends C args happ
      (C.for_each_match query (mopts C args) mode
        (VimListCtrlPMatchSource.fill args.items_obj)
        { i_ := 0, size_ := (args.items_obj.len % (SIZE_T_MOD : Int)).toNat,
          done_ := false }).1 ⟨ml, []⟩
    rw [a2]
    simp only
    rcases hfe : (C.for_each_match query (mopts C args) mode
        (VimListCtrlPMatchSource.fill args.items_obj)
        { i_ := 0, size_ := (args.items_obj.len % (SIZE_T_MOD : Int)).toNat,
          done_ := false }).2 with _ | e
    · rcases h1 with h1 | h1 <;> simp only [h1, a1]
    · simp only [a1]

/-- Witness of C8 (amended): with the match-key list missing nothing
changes. -/
theorem output_container_missing_witness :
    cpsm_ctrlp_match exampleCollaborators (exampleArgs (listOfStrings [['a'], ['b']]))
        ⟨none, some (some [])⟩ =
      ⟨none, some (some [])⟩ :=
  (output_container_missing exampleCollaborators
    (exampleArgs (listOfStrings [['a'], ['b']])) ⟨none, some (some [])⟩).1 (Or.inl rfl)

/-- C9, counterexample: three candidates, the middle one not a string.  The
`fill` call that reads it returns `false` like any other call, with the
cursor exhausted and the first candidate in the buffer; the `try` block of
`cpsm_ctrlp_match` ends without an exception, and the first candidate is
output. -/
theorem malformed_candidate_counterexample :
    readable listBadMiddle 1 = false ∧
      VimListCtrlPMatchSource.fill listBadMiddle ⟨0, 3, false⟩ [] =
        (false, ⟨1, 3, true⟩, [⟨⟨['a'], 0, 1⟩⟩]) ∧
      cpsm_ctrlp_match_try exampleCollaborators (exampleArgs listBadMiddle)
          ⟨some (some []), some (some [])⟩ =
        (⟨some (some [['a']]), some (some [['a']])⟩, none) := by
  decide

/-- C9, amended.  Reading an item that is not a readable string raises no
error in `fill`: on a cursor that is not exhausted, the call whose range
contains such an item at index `k` returns `false`, marks the cursor
exhausted and leaves in the buffer the candidates of its range up to the
first such item.  An exception that leaves the `try` block of
`cpsm_ctrlp_match` is the one of the delimiter check, one thrown by the
match-mode parser or by the matching engine, or the one of a failed append to
a host list. -/
theorem malformed_candidate_no_error :
    (∀ (list_ : list_T) (s : VimListCtrlPMatchSource) (buf : List Item) (k : Nat),
      s.done_ = false → s.i_ + 512 < 2 ^ 64 → s.i_ ≤ k →
      k < min (s.i_ + 512) s.size_ → readable list_ k = false →
      ∃ j, s.i_ ≤ j ∧ j ≤ k ∧ readable list_ j = false ∧
        VimListCtrlPMatchSource.fill list_ s buf =
          (false, { i_ := j, size_ := s.size_, done_ := true },
            buf ++ candidates list_ s.i_ (j - s.i_))) ∧
    (∀ (C : Collaborators) (args : cpsm_T) (rettv : rettv_T) (e : Error),
      (cpsm_ctrlp_match_try C args rettv).2 = some e →
      effective_query args.query args.query_inverting_delimiter = Except.error e ∨
      C.parse_ctrlp_match_mode args.mmode = Except.error e ∨
      (∃ query mode source,
        (C.for_each_match query (mopts C args) mode
          (VimListCtrlPMatchSource.fill args.items_obj) source).2 = some e) ∨
      e = ⟨"match appending failed"⟩ ∨ e = ⟨"regex appending failed"⟩) := by
  refine ⟨?_, ?_⟩
  · intro list_ s buf k hd hof hik hk hbad
    obtain ⟨j, h1, h2, h3, h4, h5⟩ := fill_spec list_ s buf hd
      (by unfold batch_size SIZE_T_MOD; exact hof)
    have hjk : j ≤ k := by
      by_contra hlt
      have := h3 k hik (by omega)
      rw [hbad] at this
      exact Bool.noConfusion this
    have hjend : j < s.i_ + (min (s.i_ + batch_size) s.size_ - s.i_) := by
      unfold batch_size; omega
    refine ⟨j, h1, hjk, h4 hjend, ?_⟩
    rw [h5]
    have hne : j ≠ s.i_ + (min (s.i_ + batch_size) s.size_ - s.i_) := by omega
    simp [hne]
  · intro C args rettv e h
    unfold cpsm_ctrlp_match_try at h
    cases hq : effective_query args.query args.query_inverting_delimiter with
    | error e1 =>
      rw [hq] at h
      simp only [Option.some.injEq] at h
      left; rw [h]
    | ok query =>
      rw [hq] at h
      simp only at h
      rcases h0 : rettv.item0 with _ | _ | ml
      · rw [h0] at h; simp at h
      · rw [h0] at h; simp at h
      · rw [h0] at h
        simp only at h
        cases hp : C.parse_ctrlp_match_mode args.mmode with
        | error e1 =>
          rw [hp] at h
          simp only [Option.some.injEq] at h
          right; left; rw [h]
        | ok match_mode =>
          rw [hp] at h
          simp only [for_each_vimctrlp_match_eq, DO_MATCH_WITH_eq] at h
          rcases hs : (run_sink C args
              (C.for_each_match query (mopts C args) match_mode
                (VimListCtrlPMatchSource.fill args.items_obj)
                { i_ := 0, size_ := (args.items_obj.len % (SIZE_T_MOD : Int)).toNat,
                  done_ := false }).1 ⟨ml, []⟩).2 with _ | e1
          · rw [hs] at h
            simp only at h
            rcases hfe : (C.for_each_match query (mopts C args) match_mode
                (VimListCtrlPMatchSource.fill args.items_obj)
                { i_ := 0, size_ := (args.items_obj.len % (SIZE_T_MOD : Int)).toNat,
                  done_ := false }).2 with _ | e2
            · rw [hfe] at h
              simp only at h
              rcases h1 : rettv.item1 with _ | _ | rl
              · rw [h1] at h; simp at h
              · rw [h1] at h; simp at h
              · rw [h1] at h
                simp only at h
                rcases hap : append_regexes C (run_sink C args
                    (C.for_each_match query (mopts C args) match_mode
                      (VimListCtrlPMatchSource.fill args.items_obj)
                      { i_ := 0, size_ := (args.items_obj.len % (SIZE_T_MOD : Int)).toNat,
                        done_ := false }).1 ⟨ml, []⟩).1.highlight_regexes rl with ⟨rl1, ok⟩
                rw [hap] at h
                cases ok with
                | false =>
                  simp only [Option.some.injEq] at h
                  right; right; right; right; exact h.symm
                | true => simp at h
            · rw [hfe] at h
              simp only [Option.some.injEq] at h
              right; right; left
              exact ⟨query, match_mode, _, by rw [hfe, h]⟩
          · rw [hs] at h
            simp only [Option.some.injEq] at h
            have := run_sink_error C args _ _ e1 hs
            right; right; right; left
            rw [← h]; exact this

/-- Witness of C9 (amended): the call that reads the middle item of
`listBadMiddle` returns `false` and stops there. -/
theorem malformed_candidate_no_error_witness :
    ∃ j, 0 ≤ j ∧ j ≤ 1 ∧ readable listBadMiddle j = false ∧
      VimListCtrlPMatchSource.fill listBadMiddle ⟨0, 3, false⟩ [] =
        (false, { i_ := j, size_ := 3, done_ := true },
          [] ++ candidates listBadMiddle 0 (j - 0)) :=
  malformed_candidate_no_error.1 listBadMiddle ⟨0, 3, false⟩ [] 1 rfl (by decide)
    (by decide) (by decide) rfl

end Cpsm
